import Mathlib

/-!
Shallow embedding of the PDF merge engine in `src/src-tauri/src/lib.rs`
(the `merge_pdfs` command and its helper `update_references`, built over
the `lopdf` document model).

Modelling conventions:
* Object numbers (`u32`) and generations (`u16`) are modelled as `Nat`;
  within one merge the allocator stays far below `2^32` on every input
  the program can load, so no wraparound is modelled.
* `BTreeMap`s (object tables, id maps) are modelled as association lists
  in iteration order; the program only ever builds them with unique keys.
* The `f32` payload of `Real` carries an uninterpreted bit pattern; byte
  strings and stream payloads are byte lists; names and dictionary keys
  are strings.
* Rust's stable `sort_by`/`sort_by_key` is modelled by a stable insertion
  sort (`stableSort`); for a total preorder every stable sort produces
  the same list.
-/

/-- Pair (object number, generation), as in lopdf's `ObjectId`. -/
abbrev ObjectId := Nat × Nat

mutual

/-- Tagged union of PDF object variants, as in lopdf's `Object`. -/
inductive Object where
  | null
  | boolean (b : Bool)
  | integer (i : Int)
  | real (bits : Nat)
  | string (bytes : List Nat)
  | name (n : String)
  | array (elems : ObjList)
  | dictionary (entries : DictList)
  | stream (dict : DictList) (content : List Nat)
  | reference (id : ObjectId)
  deriving DecidableEq

/-- List of objects (elements of an `Object.array`). -/
inductive ObjList where
  | nil
  | cons (hd : Object) (tl : ObjList)
  deriving DecidableEq

/-- Ordered entry list of a lopdf `Dictionary` (keys unique, insertion
order preserved). -/
inductive DictList where
  | nil
  | cons (key : String) (val : Object) (tl : DictList)
  deriving DecidableEq

end

/-- List of an array's elements, for stating pointwise properties. -/
def ObjList.toList : ObjList → List Object
  | .nil => []
  | .cons x tl => x :: tl.toList

/-- Entry list of a dictionary, for stating pointwise properties. -/
def DictList.toList : DictList → List (String × Object)
  | .nil => []
  | .cons k v tl => (k, v) :: tl.toList

/-- Keys of a dictionary, in order. -/
def DictList.keys : DictList → List String
  | .nil => []
  | .cons k _ tl => k :: tl.keys

/-- Lookup in a lopdf `Dictionary` (`Dictionary::get`): value of the
first entry with the given key. -/
def dictGet : DictList → String → Option Object
  | .nil, _ => none
  | .cons k' v tl, k => if k' = k then some v else dictGet tl k

/-- Update in a lopdf `Dictionary` (`Dictionary::set`): replace the value
of the (unique) existing entry with this key in place, otherwise append
a new entry at the end. -/
def dictSet : DictList → String → Object → DictList
  | .nil, k, v => .cons k v .nil
  | .cons k' v' tl, k, v =>
      if k' = k then .cons k v tl else .cons k' v' (dictSet tl k v)

/-- Object table of a document: the entries of lopdf's
`BTreeMap<ObjectId, Object>` in iteration order. -/
abbrev Table := List (ObjectId × Object)

/-- Per-document old-id to new-id map, lopdf's
`BTreeMap<ObjectId, ObjectId>`. -/
abbrev IDMap := List (ObjectId × ObjectId)

/-- Map lookup on an `IDMap` (`BTreeMap::get`; keys are unique in every
map the program builds, so first-match lookup is exact). -/
def idMapLookup : IDMap → ObjectId → Option ObjectId
  | [], _ => none
  | p :: ps, k => if p.1 = k then some p.2 else idMapLookup ps k

/-- Insertion into an object table (`BTreeMap::insert`): replace the
value of an existing key, otherwise add the entry. -/
def tableInsert : Table → ObjectId → Object → Table
  | [], k, v => [(k, v)]
  | p :: ps, k, v => if p.1 = k then (k, v) :: ps else p :: tableInsert ps k v

mutual

/-- Function `update_references` from `lib.rs`: rewrite a `Reference`
whose id is in the map, descend through dictionary values, array
elements and stream metadata dictionaries; leave every other variant
(and every stream payload) unchanged; never follow a reference to its
target. -/
def update_references (m : IDMap) : Object → Object
  | .reference i =>
      match idMapLookup m i with
      | some nid => .reference nid
      | none => .reference i
  | .dictionary d => .dictionary (updateDict m d)
  | .array a => .array (updateList m a)
  | .stream d c => .stream (updateDict m d) c
  | .null => .null
  | .boolean b => .boolean b
  | .integer i => .integer i
  | .real r => .real r
  | .string s => .string s
  | .name n => .name n

/-- Elementwise `update_references` over array elements (the
`Object::Array` arm of the source's match). -/
def updateList (m : IDMap) : ObjList → ObjList
  | .nil => .nil
  | .cons x tl => .cons (update_references m x) (updateList m tl)

/-- Valuewise `update_references` over dictionary entries (the
`Object::Dictionary` and `Object::Stream` arms of the source's match);
keys are untouched. -/
def updateDict (m : IDMap) : DictList → DictList
  | .nil => .nil
  | .cons k v tl => .cons k (update_references m v) (updateDict m tl)

end

mutual

/-- All ids occurring in `Reference` position inside an object
(structural occurrences only; targets are not followed). -/
def refsOf : Object → List ObjectId
  | .reference i => [i]
  | .dictionary d => refsOfDict d
  | .array a => refsOfList a
  | .stream d _ => refsOfDict d
  | .null => []
  | .boolean _ => []
  | .integer _ => []
  | .real _ => []
  | .string _ => []
  | .name _ => []

/-- References occurring in a list of array elements. -/
def refsOfList : ObjList → List ObjectId
  | .nil => []
  | .cons x tl => refsOf x ++ refsOfList tl

/-- References occurring in the values of a dictionary. -/
def refsOfDict : DictList → List ObjectId
  | .nil => []
  | .cons _ v tl => refsOf v ++ refsOfDict tl

end

/-- Stable insertion of `x` into a list: `x` goes in front of the first
element `y` with `le x y`. -/
def stableInsert (le : α → α → Bool) (x : α) : List α → List α
  | [] => [x]
  | y :: ys => if le x y then x :: y :: ys else y :: stableInsert le x ys

/-- Stable sort by the boolean comparator `le`; models Rust's stable
`sort_by`/`sort_by_key` (for a total preorder, all stable sorts agree). -/
def stableSort (le : α → α → Bool) : List α → List α
  | [] => []
  | x :: xs => stableInsert le x (stableSort le xs)

/-- In-memory PDF document, as in lopdf's `Document`.  The `pages` field
records the result of the external library's `get_pages` enumeration
(page number to page object id), which the spec delegates to the parser
as a black box; the merge only consumes it. -/
structure Document where
  version : String
  objects : Table
  pages : List (Nat × ObjectId)
  trailer : DictList
  maxId : Nat

/-- First pass of the per-document loop in `merge_pdfs`: allocate a
fresh id `(max_id, 0)` for every key of the source table, incrementing
the shared counter by one per key. -/
def buildIdMap : List ObjectId → Nat → IDMap
  | [], _ => []
  | k :: ks, n => (k, (n, 0)) :: buildIdMap ks (n + 1)

/-- Second pass of the per-document loop: copy each object into the
merged table under its mapped id, rewritten through the full map. -/
def copyFold (m : IDMap) : List (ObjectId × Object) → Table → Table
  | [], t => t
  | p :: ps, t =>
      copyFold m ps (tableInsert t ((idMapLookup m p.1).getD (0, 0)) (update_references m p.2))

/-- The whole document loop of `merge_pdfs`: for each source document,
build its id map from the running counter, copy its rewritten objects
into the merged table, and record the map. -/
def copyDocs : List Document → Table → Nat → Table × Nat × List IDMap
  | [], t, n => (t, n, [])
  | d :: ds, t, n =>
      let m := buildIdMap (d.objects.map Prod.fst) n
      let t1 := copyFold m d.objects t
      let r := copyDocs ds t1 (n + d.objects.length)
      (r.1, r.2.1, m :: r.2.2)

/-- Page enumeration order used by `merge_pdfs`: the collected
`get_pages` pairs sorted ascending by page number (Rust's stable
`sort_by` on the first component). -/
def sortPages (l : List (Nat × ObjectId)) : List (Nat × ObjectId) :=
  stableSort (fun a b => decide (a.1 ≤ b.1)) l

/-- Page collection loop of `merge_pdfs`: per document in order, sort
its pages by page number and translate each page id through that
document's id map, skipping ids the map lacks. -/
def collectPages : List Document → List IDMap → List ObjectId
  | d :: ds, m :: ms =>
      ((sortPages d.pages).filterMap (fun p => idMapLookup m p.2)) ++ collectPages ds ms
  | _, _ => []

/-- Array of references to the given ids, as built for the new "Kids"
entry. -/
def refArray : List ObjectId → ObjList
  | [] => .nil
  | i :: is => .cons (.reference i) (refArray is)

/-- Parent fixup for one page id (`merged_doc.objects.get_mut` followed
by `Dictionary::set("Parent", ...)` when the entry is a dictionary). -/
def setParent : Table → ObjectId → ObjectId → Table
  | [], _, _ => []
  | p :: ps, pid, par =>
      if p.1 = pid then
        (p.1, match p.2 with
              | .dictionary d => .dictionary (dictSet d "Parent" (.reference par))
              | o => o) :: ps
      else p :: setParent ps pid par

/-- Parent fixup loop over the global page order. -/
def setParents : Table → List ObjectId → ObjectId → Table
  | t, [], _ => t
  | t, pid :: pids, par => setParents (setParent t pid par) pids par

/-- Result of the document loop: merged table so far, final counter
value, and the per-document id maps. -/
def mergeBase (docs : List Document) : Table × Nat × List IDMap :=
  copyDocs docs [] 1

/-- The global page order (`all_page_ids` in the source). -/
def mergedPageIds (docs : List Document) : List ObjectId :=
  collectPages docs (mergeBase docs).2.2

/-- Id allocated for the new Pages node (`pages_id`). -/
def mergedPagesId (docs : List Document) : ObjectId :=
  ((mergeBase docs).2.1, 0)

/-- The synthesized Pages dictionary: Type, Kids over the global page
order, Count equal to its length. -/
def mergedPagesDict (docs : List Document) : DictList :=
  dictSet
    (dictSet (dictSet .nil "Type" (.name "Pages"))
      "Kids" (.array (refArray (mergedPageIds docs))))
    "Count" (.integer ((mergedPageIds docs).length : Int))

/-- Id allocated for the new Catalog (`catalog_id`). -/
def mergedCatalogId (docs : List Document) : ObjectId :=
  ((mergeBase docs).2.1 + 1, 0)

/-- The synthesized Catalog dictionary. -/
def mergedCatalogDict (docs : List Document) : DictList :=
  dictSet (dictSet .nil "Type" (.name "Catalog"))
    "Pages" (.reference (mergedPagesId docs))

/-- Merged table after inserting the Pages node but before the parent
fixup loop. -/
def preParentTable (docs : List Document) : Table :=
  tableInsert (mergeBase docs).1 (mergedPagesId docs)
    (.dictionary (mergedPagesDict docs))

/-- Core of `merge_pdfs` on already-loaded documents: copy and rewrite
all objects, build the new page tree, fix parents, add the catalog, set
the trailer Root and the max-id counter.  The output document's
`pages` field is unused (the program never enumerates the merged
document's pages). -/
def mergeCore (docs : List Document) : Document :=
  { version := "1.5"
    objects :=
      tableInsert
        (setParents (preParentTable docs) (mergedPageIds docs) (mergedPagesId docs))
        (mergedCatalogId docs) (.dictionary (mergedCatalogDict docs))
    pages := []
    trailer := dictSet .nil "Root" (.reference (mergedCatalogId docs))
    maxId := (mergeBase docs).2.1 + 2 }

/-- A directory entry as seen by `merge_pdfs`: its extension (as
`Path::extension`), its modification time (metadata errors collapse to
the epoch, i.e. 0), and the result of loading it with the PDF parser. -/
structure FsEntry where
  ext : Option String
  mtime : Nat
  loadResult : Except String Document

/-- Loading loop: load every file in order, aborting at the first
failure (the source's `collect::<Result<Vec<_>, String>>()`). -/
def loadAll : List FsEntry → Except String (List Document)
  | [] => .ok []
  | e :: es =>
      match e.loadResult with
      | .error msg => .error msg
      | .ok d =>
          match loadAll es with
          | .error msg => .error msg
          | .ok ds => .ok (d :: ds)

/-- Candidate selection of `merge_pdfs`: entries whose extension is
exactly "pdf". -/
def pdfCandidates (entries : List FsEntry) : List FsEntry :=
  entries.filter (fun e => e.ext = some "pdf")

/-- The `merge_pdfs` command, up to the final save: directory check,
candidate filtering, error on empty candidate set, stable sort by
modification time, loading, and the in-memory merge.  A returned
`Except.error` corresponds to the source's early `return Err(...)`, on
which no output file is created. -/
def merge_pdfs (dirPath : String) (isDir : Bool) (entries : List FsEntry) :
    Except String Document :=
  if isDir then
    let files := pdfCandidates entries
    if files.isEmpty then .error "No PDF files found in the directory."
    else
      match loadAll (stableSort (fun a b => decide (a.mtime ≤ b.mtime)) files) with
      | .error msg => .error msg
      | .ok docs => .ok (mergeCore docs)
  else .error ("Directory '" ++ dirPath ++ "' does not exist.")

/-- Total number of objects across the source documents. -/
def totalObjs (docs : List Document) : Nat :=
  (docs.map (fun d => d.objects.length)).sum

/-- Total number of pages across the source documents. -/
def totalPages (docs : List Document) : Nat :=
  (docs.map (fun d => d.pages.length)).sum

/-- Ids (1,0), (2,0), ..., (n,0): the merged table's key sequence. -/
def idList (n : Nat) : List ObjectId :=
  (List.range' 1 n).map (fun j => (j, 0))

/-- Closed form of one document's copy pass: each source entry mapped to
its fresh id with its object rewritten. -/
def copyList (m : IDMap) (objs : List (ObjectId × Object)) : Table :=
  objs.map (fun p => ((idMapLookup m p.1).getD (0, 0), update_references m p.2))

/-- Closed form of the merged table produced by the document loop,
starting the allocator at n. -/
def blocks : List Document → Nat → Table
  | [], _ => []
  | d :: ds, n =>
      copyList (buildIdMap (d.objects.map Prod.fst) n) d.objects
        ++ blocks ds (n + d.objects.length)

/-- Closed form of the id maps produced by the document loop. -/
def mapsOf : List Document → Nat → List IDMap
  | [], _ => []
  | d :: ds, n =>
      buildIdMap (d.objects.map Prod.fst) n :: mapsOf ds (n + d.objects.length)

/-- Effect of the parent fixup on a single table value. -/
def patchParent (par : ObjectId) : Object → Object
  | .dictionary d => .dictionary (dictSet d "Parent" (.reference par))
  | o => o

/-- Whether an object is a dictionary whose "Type" entry is the given
name (the sense in which the spec counts Catalog and Pages objects). -/
def hasTypeName (ty : String) (o : Object) : Bool :=
  match o with
  | .dictionary d =>
      match dictGet d "Type" with
      | some (.name s) => s = ty
      | _ => false
  | _ => false

/-- Modelled from the spec's global page order: for each source document
in ingestion order, its page enumeration sorted ascending by page-tree
order key, each page id translated through that document's IDMap. -/
def specGlobalPageOrder (docs : List Document) (maps : List IDMap) : List ObjectId :=
  (docs.zip maps).flatMap
    (fun dm => (sortPages dm.1.pages).filterMap (fun p => idMapLookup dm.2 p.2))

/-- Well-formedness of source documents as lopdf loads them: object
table keys are unique (they come from a BTreeMap). -/
abbrev WfDocs (docs : List Document) : Prop :=
  ∀ d ∈ docs, (d.objects.map Prod.fst).Nodup

/-- Page enumeration soundness, as provided by lopdf's page traversal:
every enumerated page id is a key of the document's own table. -/
abbrev WfPages (docs : List Document) : Prop :=
  ∀ d ∈ docs, ∀ p ∈ d.pages, p.2 ∈ d.objects.map Prod.fst

/-- One-object document used to evaluate the merge concretely. -/
def docNullOnly : Document :=
  { version := "1.5"
    objects := [((1, 0), Object.null)]
    pages := []
    trailer := .nil
    maxId := 1 }

/-- One-object document whose single object is a Catalog dictionary, as
every well-formed PDF contains. -/
def docCatalogOnly : Document :=
  { version := "1.4"
    objects := [((1, 0), Object.dictionary (.cons "Type" (.name "Catalog") .nil))]
    pages := []
    trailer := .nil
    maxId := 1 }

/-- Two-object document with one page referencing a content stream. -/
def docOnePage : Document :=
  { version := "1.5"
    objects :=
      [((1, 0), Object.dictionary
          (.cons "Type" (.name "Page")
            (.cons "Contents" (.reference (2, 0)) .nil))),
       ((2, 0), Object.stream (.cons "Length" (.integer 4) .nil) [66, 84, 69, 84])]
    pages := [(1, (1, 0))]
    trailer := .nil
    maxId := 2 }

/-- Concrete directory entry holding a one-page document. -/
def entryOnePage : FsEntry :=
  { ext := some "pdf"
    mtime := 7
    loadResult := .ok docOnePage }

/-- Concrete directory entry with a non-PDF extension. -/
def entryTxt : FsEntry :=
  { ext := some "txt"
    mtime := 3
    loadResult := .error "not a pdf" }

example : update_references [((1, 0), (5, 0))]
      (.array (.cons (.reference (1, 0)) (.cons (.reference (2, 0)) .nil)))
    = .array (.cons (.reference (5, 0)) (.cons (.reference (2, 0)) .nil)) := rfl

example : refsOf (.dictionary (.cons "A" (.reference (3, 0)) (.cons "B" (.integer 7) .nil)))
    = [(3, 0)] := rfl

example : stableSort (fun a b => decide (a.1 ≤ b.1)) [(3, 1), (1, 2), (3, 0)]
    = [(1, 2), (3, 1), (3, 0)] := rfl

theorem dictListRecAux {P : DictList → Prop} (h0 : P DictList.nil)
    (h1 : ∀ k v tl, P tl → P (DictList.cons k v tl)) (d : DictList) : P d :=
  match d with
  | .nil => h0
  | .cons k v tl => h1 k v tl (dictListRecAux h0 h1 tl)

theorem objListRecAux {P : ObjList → Prop} (h0 : P ObjList.nil)
    (h1 : ∀ x tl, P tl → P (ObjList.cons x tl)) (l : ObjList) : P l :=
  match l with
  | .nil => h0
  | .cons x tl => h1 x tl (objListRecAux h0 h1 tl)

theorem dictGet_dictSet_self (d : DictList) (k : String) (v : Object) :
    dictGet (dictSet d k v) k = some v := by
  induction d using dictListRecAux with
  | h0 => simp [dictSet, dictGet]
  | h1 k' v' tl ih =>
      by_cases h : k' = k
      · simp [dictSet, h, dictGet]
      · simp [dictSet, h, dictGet, ih]

theorem dictGet_dictSet_ne (d : DictList) (k k' : String) (v : Object) (h : k' ≠ k) :
    dictGet (dictSet d k v) k' = dictGet d k' := by
  have hkk : ¬ k = k' := fun hh => h hh.symm
  induction d using dictListRecAux with
  | h0 => simp [dictSet, dictGet, hkk]
  | h1 k0 v0 tl ih =>
      by_cases hk0 : k0 = k
      · subst hk0
        simp [dictSet, dictGet, hkk]
      · by_cases hk1 : k0 = k'
        · simp [dictSet, dictGet, hk0, hk1, h]
        · simp [dictSet, dictGet, hk0, hk1, ih]

theorem dictSet_idem (d : DictList) (k : String) (v : Object) :
    dictSet (dictSet d k v) k v = dictSet d k v := by
  induction d using dictListRecAux with
  | h0 => simp [dictSet]
  | h1 k' v' tl ih =>
      by_cases h : k' = k
      · simp [dictSet, h]
      · simp [dictSet, h, ih]

theorem updateDict_keys (m : IDMap) (d : DictList) :
    (updateDict m d).keys = d.keys := by
  induction d using dictListRecAux with
  | h0 => rfl
  | h1 k v tl ih => simp [updateDict, DictList.keys, ih]

theorem dictGet_updateDict (m : IDMap) (d : DictList) (k : String) :
    dictGet (updateDict m d) k = (dictGet d k).map (update_references m) := by
  induction d using dictListRecAux with
  | h0 => rfl
  | h1 k' v tl ih =>
      by_cases h : k' = k
      · simp [updateDict, dictGet, h]
      · simp [updateDict, dictGet, h, ih]

theorem updateList_toList (m : IDMap) (a : ObjList) :
    (updateList m a).toList = a.toList.map (update_references m) := by
  induction a using objListRecAux with
  | h0 => rfl
  | h1 x tl ih => simp [updateList, ObjList.toList, ih]

theorem tableInsert_of_fresh (t : Table) (k : ObjectId) (v : Object)
    (h : k ∉ t.map Prod.fst) : tableInsert t k v = t ++ [(k, v)] := by
  induction t with
  | nil => rfl
  | cons p ps ih =>
      simp only [List.map_cons, List.mem_cons, not_or] at h
      have h1 : ¬ p.1 = k := fun h' => h.1 h'.symm
      simp [tableInsert, h1, ih h.2]

theorem idMapLookup_eq_some_mem {m : IDMap} {k v : ObjectId}
    (h : idMapLookup m k = some v) : (k, v) ∈ m := by
  induction m with
  | nil => simp [idMapLookup] at h
  | cons p ps ih =>
      by_cases h' : p.1 = k
      · simp only [idMapLookup] at h
        rw [if_pos h'] at h
        obtain rfl : p.2 = v := Option.some.inj h
        subst h'
        exact List.mem_cons_self _ _
      · simp only [idMapLookup] at h
        rw [if_neg h'] at h
        exact List.mem_cons_of_mem _ (ih h)

theorem buildIdMap_val {ks : List ObjectId} {n : Nat} {s r : ObjectId}
    (h : (s, r) ∈ buildIdMap ks n) : ∃ i, i < ks.length ∧ r = (n + i, 0) := by
  induction ks generalizing n with
  | nil => simp [buildIdMap] at h
  | cons k kt ih =>
      rcases List.mem_cons.mp h with h | h
      · refine ⟨0, by simp, ?_⟩
        have := congrArg Prod.snd h
        simpa using this
      · obtain ⟨i, hi, hr⟩ := ih h
        exact ⟨i + 1, by simpa using Nat.succ_lt_succ hi, by simp [hr]; omega⟩

theorem buildIdMap_lookup_isSome {ks : List ObjectId} {n : Nat} {k : ObjectId}
    (h : k ∈ ks) : (idMapLookup (buildIdMap ks n) k).isSome := by
  induction ks generalizing n with
  | nil => simp at h
  | cons k0 kt ih =>
      by_cases h0 : k0 = k
      · subst h0
        simp [buildIdMap, idMapLookup]
      · rcases List.mem_cons.mp h with h' | h'
        · exact absurd h'.symm h0
        · simp only [buildIdMap, idMapLookup, h0, if_false]
          exact ih h'

theorem buildIdMap_lookup_none {ks : List ObjectId} {n : Nat} {k : ObjectId}
    (h : idMapLookup (buildIdMap ks n) k = none) : k ∉ ks := by
  intro hk
  have := buildIdMap_lookup_isSome (n := n) hk
  simp [h] at this

theorem stableInsert_perm (le : α → α → Bool) (x : α) (l : List α) :
    (stableInsert le x l).Perm (x :: l) := by
  induction l with
  | nil => simp [stableInsert]
  | cons y ys ih =>
      by_cases h : le x y
      · simp [stableInsert, h]
      · simp only [stableInsert, h, if_false]
        exact (ih.cons y).trans (List.Perm.swap x y ys)

theorem stableSort_perm (le : α → α → Bool) (l : List α) :
    (stableSort le l).Perm l := by
  induction l with
  | nil => simp [stableSort]
  | cons x xs ih => exact (stableInsert_perm le x (stableSort le xs)).trans (ih.cons x)

theorem stableSort_length (le : α → α → Bool) (l : List α) :
    (stableSort le l).length = l.length :=
  (stableSort_perm le l).length_eq

theorem stableSort_mem (le : α → α → Bool) (l : List α) (x : α) :
    x ∈ stableSort le l ↔ x ∈ l :=
  (stableSort_perm le l).mem_iff

theorem stableInsert_sorted (f : α → Nat) (x : α) (l : List α)
    (h : l.Pairwise (fun a b => f a ≤ f b)) :
    (stableInsert (fun a b => decide (f a ≤ f b)) x l).Pairwise (fun a b => f a ≤ f b) := by
  induction l with
  | nil => simp [stableInsert]
  | cons y ys ih =>
      rcases List.pairwise_cons.mp h with ⟨hy, hys⟩
      by_cases hxy : f x ≤ f y
      · rw [stableInsert, if_pos (by simpa using hxy)]
        refine List.pairwise_cons.mpr ⟨?_, h⟩
        intro z hz
        rcases List.mem_cons.mp hz with rfl | hz
        · exact hxy
        · exact le_trans hxy (hy z hz)
      · rw [stableInsert, if_neg (by simpa using hxy)]
        refine List.pairwise_cons.mpr ⟨?_, ih hys⟩
        intro z hz
        rcases List.mem_cons.mp ((stableInsert_perm _ x ys).mem_iff.mp hz) with h' | h'
        · subst h'
          omega
        · exact hy z h'

theorem stableSort_sorted (f : α → Nat) (l : List α) :
    (stableSort (fun a b => decide (f a ≤ f b)) l).Pairwise (fun a b => f a ≤ f b) := by
  induction l with
  | nil => simp [stableSort]
  | cons x xs ih => exact stableInsert_sorted f x _ ih

theorem stableInsert_filter_key (f : α → Nat) (x : α) (l : List α) (t : Nat) :
    (stableInsert (fun a b => decide (f a ≤ f b)) x l).filter (fun y => decide (f y = t))
      = if f x = t then x :: l.filter (fun y => decide (f y = t))
        else l.filter (fun y => decide (f y = t)) := by
  induction l with
  | nil =>
      by_cases h : f x = t
      · rw [if_pos h]
        simp [stableInsert, List.filter, h]
      · rw [if_neg h]
        simp [stableInsert, List.filter, h]
  | cons y ys ih =>
      by_cases hxy : f x ≤ f y
      · rw [stableInsert, if_pos (by simpa using hxy)]
        by_cases hx : f x = t
        · rw [if_pos hx]
          simp [List.filter_cons, hx]
        · rw [if_neg hx]
          simp [List.filter_cons, hx]
      · rw [stableInsert, if_neg (by simpa using hxy)]
        by_cases hy : f y = t
        · have hx : ¬ f x = t := by omega
          simp [List.filter_cons, hy, hx, ih]
        · by_cases hx : f x = t
          · simp [List.filter_cons, hy, hx, ih]
          · simp [List.filter_cons, hy, hx, ih]

theorem stableSort_filter_key (f : α → Nat) (l : List α) (t : Nat) :
    (stableSort (fun a b => decide (f a ≤ f b)) l).filter (fun y => decide (f y = t))
      = l.filter (fun y => decide (f y = t)) := by
  induction l with
  | nil => rfl
  | cons x xs ih =>
      rw [stableSort, stableInsert_filter_key, List.filter_cons]
      by_cases hx : f x = t
      · rw [if_pos hx, if_pos (by simpa using hx), ih]
      · rw [if_neg hx, if_neg (by simpa using hx), ih]

mutual

theorem refsOf_update (m : IDMap) (o : Object) :
    ∀ r ∈ refsOf (update_references m o),
      (∃ s, idMapLookup m s = some r) ∨ (r ∈ refsOf o ∧ idMapLookup m r = none) := by
  cases o with
  | reference i =>
      intro r hr
      cases hl : idMapLookup m i with
      | some nid =>
          simp only [update_references, hl, refsOf, List.mem_singleton] at hr
          subst hr
          exact Or.inl ⟨i, hl⟩
      | none =>
          simp only [update_references, hl, refsOf, List.mem_singleton] at hr
          subst hr
          exact Or.inr ⟨by simp [refsOf], hl⟩
  | array a =>
      intro r hr
      simp only [update_references, refsOf] at hr
      simpa [refsOf] using refsOfList_update m a r hr
  | dictionary d =>
      intro r hr
      simp only [update_references, refsOf] at hr
      simpa [refsOf] using refsOfDict_update m d r hr
  | stream d c =>
      intro r hr
      simp only [update_references, refsOf] at hr
      simpa [refsOf] using refsOfDict_update m d r hr
  | null => intro r hr; simp [update_references, refsOf] at hr
  | boolean b => intro r hr; simp [update_references, refsOf] at hr
  | integer i => intro r hr; simp [update_references, refsOf] at hr
  | real b => intro r hr; simp [update_references, refsOf] at hr
  | string s => intro r hr; simp [update_references, refsOf] at hr
  | name s => intro r hr; simp [update_references, refsOf] at hr

theorem refsOfList_update (m : IDMap) (l : ObjList) :
    ∀ r ∈ refsOfList (updateList m l),
      (∃ s, idMapLookup m s = some r) ∨ (r ∈ refsOfList l ∧ idMapLookup m r = none) := by
  cases l with
  | nil => intro r hr; simp [updateList, refsOfList] at hr
  | cons x tl =>
      intro r hr
      simp only [updateList, refsOfList, List.mem_append] at hr
      rcases hr with hr | hr
      · rcases refsOf_update m x r hr with h | h
        · exact Or.inl h
        · exact Or.inr ⟨by simp [refsOfList, List.mem_append, h.1], h.2⟩
      · rcases refsOfList_update m tl r hr with h | h
        · exact Or.inl h
        · exact Or.inr ⟨by simp [refsOfList, List.mem_append, h.1], h.2⟩

theorem refsOfDict_update (m : IDMap) (d : DictList) :
    ∀ r ∈ refsOfDict (updateDict m d),
      (∃ s, idMapLookup m s = some r) ∨ (r ∈ refsOfDict d ∧ idMapLookup m r = none) := by
  cases d with
  | nil => intro r hr; simp [updateDict, refsOfDict] at hr
  | cons k v tl =>
      intro r hr
      simp only [updateDict, refsOfDict, List.mem_append] at hr
      rcases hr with hr | hr
      · rcases refsOf_update m v r hr with h | h
        · exact Or.inl h
        · exact Or.inr ⟨by simp [refsOfDict, List.mem_append, h.1], h.2⟩
      · rcases refsOfDict_update m tl r hr with h | h
        · exact Or.inl h
        · exact Or.inr ⟨by simp [refsOfDict, List.mem_append, h.1], h.2⟩

end

theorem hasTypeName_update (ty : String) (m : IDMap) (o : Object) :
    hasTypeName ty (update_references m o) = hasTypeName ty o := by
  cases o with
  | dictionary d =>
      simp only [update_references, hasTypeName, dictGet_updateDict]
      cases hg : dictGet d "Type" with
      | none => simp
      | some v =>
          cases v with
          | reference i => cases hl : idMapLookup m i <;> simp [update_references, hl]
          | name s => simp [update_references]
          | null => simp [update_references]
          | boolean b => simp [update_references]
          | integer i => simp [update_references]
          | real b => simp [update_references]
          | string s => simp [update_references]
          | array a => simp [update_references]
          | dictionary d' => simp [update_references]
          | stream d' c => simp [update_references]
  | reference i => cases hl : idMapLookup m i <;> simp [update_references, hl, hasTypeName]
  | null => rfl
  | boolean b => rfl
  | integer i => rfl
  | real b => rfl
  | string s => rfl
  | name s => rfl
  | array a => rfl
  | stream d c => rfl

theorem refsOfList_refArray (l : List ObjectId) : refsOfList (refArray l) = l := by
  induction l with
  | nil => rfl
  | cons i is ih => simp [refArray, refsOfList, refsOf, ih]

theorem refsOfDict_dictSet_sub (d : DictList) (k : String) (v : Object) :
    ∀ r ∈ refsOfDict (dictSet d k v), r ∈ refsOfDict d ∨ r ∈ refsOf v := by
  induction d using dictListRecAux with
  | h0 =>
      intro r hr
      simp only [dictSet, refsOfDict, List.append_nil] at hr
      exact Or.inr hr
  | h1 k0 v0 tl ih =>
      intro r hr
      by_cases h : k0 = k
      · simp only [dictSet, if_pos h, refsOfDict, List.mem_append] at hr
        rcases hr with hr | hr
        · exact Or.inr hr
        · exact Or.inl (by simp [refsOfDict, List.mem_append, hr])
      · simp only [dictSet, if_neg h, refsOfDict, List.mem_append] at hr
        rcases hr with hr | hr
        · exact Or.inl (by simp [refsOfDict, List.mem_append, hr])
        · rcases ih r hr with h' | h'
          · exact Or.inl (by simp [refsOfDict, List.mem_append, h'])
          · exact Or.inr h'

theorem refsOf_patchParent (par : ObjectId) (o : Object) :
    ∀ r ∈ refsOf (patchParent par o), r ∈ refsOf o ∨ r = par := by
  cases o with
  | dictionary d =>
      intro r hr
      simp only [patchParent, refsOf] at hr
      rcases refsOfDict_dictSet_sub d "Parent" (.reference par) r hr with h | h
      · exact Or.inl (by simpa [refsOf] using h)
      · exact Or.inr (by simpa [refsOf] using h)
  | null => intro r hr; exact Or.inl hr
  | boolean b => intro r hr; exact Or.inl hr
  | integer i => intro r hr; exact Or.inl hr
  | real b => intro r hr; exact Or.inl hr
  | string s => intro r hr; exact Or.inl hr
  | name s => intro r hr; exact Or.inl hr
  | array a => intro r hr; exact Or.inl hr
  | stream d c => intro r hr; exact Or.inl hr
  | reference i => intro r hr; exact Or.inl hr

theorem hasTypeName_patchParent (ty : String) (par : ObjectId) (o : Object) :
    hasTypeName ty (patchParent par o) = hasTypeName ty o := by
  cases o with
  | dictionary d =>
      simp only [patchParent, hasTypeName]
      rw [dictGet_dictSet_ne d "Parent" "Type" _ (by decide)]
  | null => rfl
  | boolean b => rfl
  | integer i => rfl
  | real b => rfl
  | string s => rfl
  | name s => rfl
  | array a => rfl
  | stream d c => rfl
  | reference i => rfl

theorem mem_idList {k : ObjectId} {n : Nat} :
    k ∈ idList n ↔ 1 ≤ k.1 ∧ k.1 ≤ n ∧ k.2 = 0 := by
  constructor
  · intro h
    obtain ⟨j, hj, hjk⟩ := List.mem_map.mp h
    have hr := List.mem_range'_1.mp hj
    obtain rfl := hjk.symm
    exact ⟨by omega, by omega, rfl⟩
  · rintro ⟨h1, h2, h3⟩
    refine List.mem_map.mpr ⟨k.1, List.mem_range'_1.mpr ⟨h1, by omega⟩, ?_⟩
    obtain ⟨a, b⟩ := k
    simp only at h3
    rw [h3]

theorem idList_append (c len : Nat) :
    idList c ++ (List.range' (c + 1) len).map (fun j => (j, 0)) = idList (c + len) := by
  unfold idList
  rw [← List.map_append]
  congr 1
  have h := List.range'_append 1 c len 1
  simp only [one_mul] at h
  rw [show 1 + c = c + 1 from Nat.add_comm 1 c, show len + c = c + len from Nat.add_comm len c] at h
  exact h

theorem copyList_keys (m : IDMap) (objs : List (ObjectId × Object)) :
    (copyList m objs).map Prod.fst
      = objs.map (fun p => (idMapLookup m p.1).getD (0, 0)) := by
  simp [copyList, List.map_map]

theorem buildIdMap_keys_eval (objs : List (ObjectId × Object)) (n : Nat)
    (hnd : (objs.map Prod.fst).Nodup) :
    objs.map (fun p => (idMapLookup (buildIdMap (objs.map Prod.fst) n) p.1).getD (0, 0))
      = (List.range' n objs.length).map (fun j => (j, 0)) := by
  induction objs generalizing n with
  | nil => rfl
  | cons p ps ih =>
      simp only [List.map_cons, List.nodup_cons] at hnd
      obtain ⟨hp, hps⟩ := hnd
      have htail : ∀ q ∈ ps,
          (idMapLookup (buildIdMap ((p :: ps).map Prod.fst) n) q.1).getD (0, 0)
            = (idMapLookup (buildIdMap (ps.map Prod.fst) (n + 1)) q.1).getD (0, 0) := by
        intro q hq
        have hne : ¬ p.1 = q.1 := by
          intro he
          exact hp (he ▸ List.mem_map_of_mem Prod.fst hq)
        simp [List.map_cons, buildIdMap, idMapLookup, hne]
      calc (p :: ps).map
            (fun q => (idMapLookup (buildIdMap ((p :: ps).map Prod.fst) n) q.1).getD (0, 0))
          = (idMapLookup (buildIdMap ((p :: ps).map Prod.fst) n) p.1).getD (0, 0)
              :: ps.map
                (fun q => (idMapLookup (buildIdMap (ps.map Prod.fst) (n + 1)) q.1).getD (0, 0)) := by
            rw [List.map_cons]
            congr 1
            exact List.map_congr_left htail
        _ = (n, 0) :: (List.range' (n + 1) ps.length).map (fun j => (j, 0)) := by
            rw [ih (n + 1) hps]
            congr 1
            simp [List.map_cons, buildIdMap, idMapLookup]
        _ = (List.range' n (p :: ps).length).map (fun j => (j, 0)) := by
            simp [List.range'_succ]

theorem copyFold_eq_append (m : IDMap) (objs : List (ObjectId × Object)) (t : Table)
    (hfresh : ∀ p ∈ objs, (idMapLookup m p.1).getD (0, 0) ∉ t.map Prod.fst)
    (hnd : (objs.map (fun p => (idMapLookup m p.1).getD (0, 0))).Nodup) :
    copyFold m objs t = t ++ copyList m objs := by
  induction objs generalizing t with
  | nil => simp [copyFold, copyList]
  | cons p ps ih =>
      simp only [copyFold]
      rw [tableInsert_of_fresh _ _ _ (hfresh p (List.mem_cons_self p ps))]
      simp only [List.map_cons, List.nodup_cons] at hnd
      rw [ih (t ++ [((idMapLookup m p.1).getD (0, 0), update_references m p.2)]) ?_ hnd.2]
      · simp [copyList]
      · intro q hq
        simp only [List.map_append, List.mem_append]
        rintro (h | h)
        · exact hfresh q (List.mem_cons_of_mem p hq) h
        · simp only [List.map_cons, List.map_nil, List.mem_singleton] at h
          exact hnd.1 (h ▸ List.mem_map_of_mem _ hq)

theorem copyDocs_closed (docs : List Document) (t : Table) (c : Nat)
    (hwf : WfDocs docs) (hk : t.map Prod.fst = idList c) :
    copyDocs docs t (c + 1)
      = (t ++ blocks docs (c + 1), c + 1 + totalObjs docs, mapsOf docs (c + 1)) := by
  induction docs generalizing t c with
  | nil => simp [copyDocs, blocks, mapsOf, totalObjs]
  | cons d ds ih =>
      have hd := hwf d (List.mem_cons_self d ds)
      have hds : WfDocs ds := fun d' h' => hwf d' (List.mem_cons_of_mem _ h')
      have hkeys := buildIdMap_keys_eval d.objects (c + 1) hd
      have hmemkey : ∀ p ∈ d.objects,
          (idMapLookup (buildIdMap (d.objects.map Prod.fst) (c + 1)) p.1).getD (0, 0)
            ∈ (List.range' (c + 1) d.objects.length).map (fun j => (j, 0)) := by
        intro p hp
        rw [← hkeys]
        exact List.mem_map_of_mem _ hp
      have hfresh : ∀ p ∈ d.objects,
          (idMapLookup (buildIdMap (d.objects.map Prod.fst) (c + 1)) p.1).getD (0, 0)
            ∉ t.map Prod.fst := by
        intro p hp hmem
        rw [hk] at hmem
        obtain ⟨j, hj, hje⟩ := List.mem_map.mp (hmemkey p hp)
        have hjr := List.mem_range'_1.mp hj
        have hml := mem_idList.mp hmem
        rw [← hje] at hml
        simp only at hml
        omega
      have hnd : (d.objects.map
          (fun p => (idMapLookup (buildIdMap (d.objects.map Prod.fst) (c + 1)) p.1).getD (0, 0))).Nodup := by
        rw [hkeys]
        exact (List.nodup_range' ..).map
          (fun a b h => by simpa using congrArg Prod.fst h)
      simp only [copyDocs]
      rw [copyFold_eq_append _ _ _ hfresh hnd]
      have hk' : (t ++ copyList (buildIdMap (d.objects.map Prod.fst) (c + 1)) d.objects).map Prod.fst
          = idList (c + d.objects.length) := by
        rw [List.map_append, hk, copyList_keys, hkeys, idList_append]
      rw [show c + 1 + d.objects.length = (c + d.objects.length) + 1 from by omega]
      rw [ih _ _ hds hk']
      simp only [blocks, mapsOf, totalObjs, List.map_cons, List.sum_cons, List.append_assoc]
      rw [show c + d.objects.length + 1 = c + 1 + d.objects.length from by omega,
        Nat.add_assoc (c + 1) d.objects.length]

theorem totalObjs_cons (d : Document) (ds : List Document) :
    totalObjs (d :: ds) = d.objects.length + totalObjs ds := by
  simp [totalObjs]

theorem totalPages_cons (d : Document) (ds : List Document) :
    totalPages (d :: ds) = d.pages.length + totalPages ds := by
  simp [totalPages]

theorem blocks_keys (docs : List Document) (n : Nat) (hwf : WfDocs docs) :
    (blocks docs n).map Prod.fst = (List.range' n (totalObjs docs)).map (fun j => (j, 0)) := by
  induction docs generalizing n with
  | nil => simp [blocks, totalObjs]
  | cons d ds ih =>
      have hd := hwf d (List.mem_cons_self d ds)
      have hds : WfDocs ds := fun d' h' => hwf d' (List.mem_cons_of_mem _ h')
      rw [blocks, List.map_append, copyList_keys, buildIdMap_keys_eval d.objects n hd,
        ih _ hds, ← List.map_append, totalObjs_cons]
      congr 1
      have h := List.range'_append n d.objects.length (totalObjs ds) 1
      simp only [one_mul] at h
      rw [Nat.add_comm (totalObjs ds) d.objects.length] at h
      exact h

theorem blocks_mem {docs : List Document} {n : Nat} {p : ObjectId × Object}
    (h : p ∈ blocks docs n) :
    ∃ d ∈ docs, ∃ s, n ≤ s ∧ s + d.objects.length ≤ n + totalObjs docs ∧
      ∃ q ∈ d.objects,
        p = ((idMapLookup (buildIdMap (d.objects.map Prod.fst) s) q.1).getD (0, 0),
             update_references (buildIdMap (d.objects.map Prod.fst) s) q.2) := by
  induction docs generalizing n with
  | nil => simp [blocks] at h
  | cons d ds ih =>
      simp only [blocks, List.mem_append] at h
      rcases h with h | h
      · simp only [copyList] at h
        obtain ⟨q, hq, he⟩ := List.mem_map.mp h
        exact ⟨d, List.mem_cons_self d ds, n, Nat.le_refl n,
          by rw [totalObjs_cons]; omega, q, hq, he.symm⟩
      · obtain ⟨d', hd', s, hs1, hs2, q, hq, he⟩ := ih h
        refine ⟨d', List.mem_cons_of_mem _ hd', s, by omega, ?_, q, hq, he⟩
        rw [totalObjs_cons]
        omega

theorem zip_mapsOf_mem {docs : List Document} {n : Nat} {d : Document} {m : IDMap}
    (h : (d, m) ∈ docs.zip (mapsOf docs n)) :
    ∃ s, n ≤ s ∧ s + d.objects.length ≤ n + totalObjs docs ∧
      m = buildIdMap (d.objects.map Prod.fst) s := by
  induction docs generalizing n with
  | nil => simp [mapsOf] at h
  | cons d0 ds ih =>
      simp only [mapsOf, List.zip_cons_cons, List.mem_cons] at h
      rcases h with h | h
      · obtain ⟨h1, h2⟩ := Prod.mk.injEq .. |>.mp h
        subst h1
        refine ⟨n, Nat.le_refl n, ?_, h2⟩
        rw [totalObjs_cons]
        omega
      · obtain ⟨s, hs1, hs2, he⟩ := ih h
        refine ⟨s, by omega, ?_, he⟩
        rw [totalObjs_cons]
        omega

theorem collectPages_eq_spec (docs : List Document) (maps : List IDMap) :
    collectPages docs maps = specGlobalPageOrder docs maps := by
  induction docs generalizing maps with
  | nil => cases maps <;> simp [collectPages, specGlobalPageOrder]
  | cons d ds ih =>
      cases maps with
      | nil => simp [collectPages, specGlobalPageOrder]
      | cons m ms => simp [collectPages, specGlobalPageOrder, ih]

theorem collectPages_mem {docs : List Document} {maps : List IDMap} {r : ObjectId}
    (h : r ∈ collectPages docs maps) :
    ∃ dm ∈ docs.zip maps, ∃ p ∈ sortPages dm.1.pages, idMapLookup dm.2 p.2 = some r := by
  induction docs generalizing maps with
  | nil => simp [collectPages] at h
  | cons d ds ih =>
      cases maps with
      | nil => simp [collectPages] at h
      | cons m ms =>
          simp only [collectPages, List.mem_append] at h
          rcases h with h | h
          · obtain ⟨p, hp, hpr⟩ := List.mem_filterMap.mp h
            exact ⟨(d, m), by simp, p, hp, hpr⟩
          · obtain ⟨dm, hdm, hp⟩ := ih h
            exact ⟨dm, by simp [List.mem_cons_of_mem, hdm], hp⟩

theorem length_filterMap_of_isSome {l : List α} {f : α → Option β}
    (h : ∀ x ∈ l, (f x).isSome) : (l.filterMap f).length = l.length := by
  induction l with
  | nil => rfl
  | cons x xs ih =>
      obtain ⟨y, hy⟩ := Option.isSome_iff_exists.mp (h x (List.mem_cons_self x xs))
      rw [List.filterMap_cons, hy]
      simp [ih (fun z hz => h z (List.mem_cons_of_mem _ hz))]

theorem collectPages_length (docs : List Document) (maps : List IDMap)
    (hlen : docs.length = maps.length)
    (hsome : ∀ dm ∈ docs.zip maps, ∀ p ∈ dm.1.pages, (idMapLookup dm.2 p.2).isSome) :
    (collectPages docs maps).length = totalPages docs := by
  induction docs generalizing maps with
  | nil => cases maps <;> simp [collectPages, totalPages]
  | cons d ds ih =>
      cases maps with
      | nil => simp at hlen
      | cons m ms =>
          rw [collectPages, List.length_append, totalPages_cons]
          have h1 : ((sortPages d.pages).filterMap (fun p => idMapLookup m p.2)).length
              = d.pages.length := by
            rw [length_filterMap_of_isSome, sortPages, stableSort_length]
            intro p hp
            exact hsome (d, m) (by simp) p ((stableSort_mem _ _ _).mp hp)
          rw [h1, ih ms (by simpa using hlen)]
          intro dm hdm p hp
          exact hsome dm (by simp [List.mem_cons_of_mem, hdm]) p hp

theorem patchParent_idem (par : ObjectId) (o : Object) :
    patchParent par (patchParent par o) = patchParent par o := by
  cases o <;> simp [patchParent, dictSet_idem]

theorem setParent_keys (t : Table) (pid par : ObjectId) :
    (setParent t pid par).map Prod.fst = t.map Prod.fst := by
  induction t with
  | nil => rfl
  | cons p ps ih =>
      by_cases h : p.1 = pid
      · simp [setParent, h]
      · simp [setParent, h, ih]

theorem setParents_keys (t : Table) (pids : List ObjectId) (par : ObjectId) :
    (setParents t pids par).map Prod.fst = t.map Prod.fst := by
  induction pids generalizing t with
  | nil => rfl
  | cons q qs ih => rw [setParents, ih, setParent_keys]

theorem setParent_closed (t : Table) (pid par : ObjectId)
    (hnd : (t.map Prod.fst).Nodup) :
    setParent t pid par
      = t.map (fun p => if p.1 = pid then (p.1, patchParent par p.2) else p) := by
  induction t with
  | nil => rfl
  | cons p ps ih =>
      simp only [List.map_cons, List.nodup_cons] at hnd
      by_cases h : p.1 = pid
      · simp only [setParent, if_pos h, List.map_cons]
        have htl : ps.map (fun q => if q.1 = pid then (q.1, patchParent par q.2) else q) = ps := by
          rw [List.map_congr_left (g := id), List.map_id]
          intro q hq
          have hq' : ¬ q.1 = pid := by
            intro he
            exact hnd.1 (h ▸ he ▸ List.mem_map_of_mem Prod.fst hq)
          simp [hq', id]
        rw [htl]
        cases p
        rename_i pk pv
        cases pv <;> simp [patchParent]
      · simp [setParent, h, ih hnd.2]

theorem setParents_closed (t : Table) (pids : List ObjectId) (par : ObjectId)
    (hnd : (t.map Prod.fst).Nodup) :
    setParents t pids par
      = t.map (fun p => if p.1 ∈ pids then (p.1, patchParent par p.2) else p) := by
  induction pids generalizing t with
  | nil =>
      rw [setParents]
      have : t.map (fun p => if p.1 ∈ ([] : List ObjectId) then (p.1, patchParent par p.2) else p)
          = t := by
        rw [List.map_congr_left (g := id), List.map_id]
        intro q hq
        simp [id]
      exact this.symm
  | cons q qs ih =>
      rw [setParents, setParent_closed t q par hnd]
      have hnd' : ((t.map (fun p => if p.1 = q then (p.1, patchParent par p.2) else p)).map
          Prod.fst).Nodup := by
        rw [List.map_map, List.map_congr_left (g := Prod.fst)]
        · exact hnd
        · intro p hp
          by_cases h : p.1 = q <;> simp [h]
      rw [ih _ hnd', List.map_map]
      refine List.map_congr_left ?_
      intro p hp
      by_cases h : p.1 = q
      · by_cases h' : p.1 ∈ qs <;>
          simp [Function.comp, h, h', patchParent_idem, List.mem_cons]
      · by_cases h' : p.1 ∈ qs <;>
          simp [Function.comp, h, h', List.mem_cons]

theorem idList_nodup (n : Nat) : (idList n).Nodup :=
  (List.nodup_range' ..).map (fun a b h => by simpa using congrArg Prod.fst h)

theorem idList_snoc (n : Nat) : idList n ++ [(n + 1, 0)] = idList (n + 1) := by
  have h := idList_append n 1
  simpa [List.range'_one] using h

theorem copyDocs_counter (docs : List Document) (t : Table) (n : Nat) :
    (copyDocs docs t n).2.1 = n + totalObjs docs := by
  induction docs generalizing t n with
  | nil => simp [copyDocs, totalObjs]
  | cons d ds ih =>
      simp only [copyDocs, ih, totalObjs_cons]
      omega

theorem mergeBase_counter (docs : List Document) :
    (mergeBase docs).2.1 = totalObjs docs + 1 := by
  rw [mergeBase, copyDocs_counter]
  omega

theorem mergedPagesId_eq (docs : List Document) :
    mergedPagesId docs = (totalObjs docs + 1, 0) := by
  rw [mergedPagesId, mergeBase_counter]

theorem mergedCatalogId_eq (docs : List Document) :
    mergedCatalogId docs = (totalObjs docs + 2, 0) := by
  rw [mergedCatalogId, mergeBase_counter]

theorem mergeBase_closed (docs : List Document) (hwf : WfDocs docs) :
    mergeBase docs = (blocks docs 1, totalObjs docs + 1, mapsOf docs 1) := by
  have h := copyDocs_closed docs [] 0 hwf (by simp [idList])
  rw [mergeBase, show (1 : Nat) = 0 + 1 from rfl, h]
  simp [Nat.add_comm]

theorem mergedPageIds_sub (docs : List Document) (hwf : WfDocs docs) :
    ∀ r ∈ mergedPageIds docs, r ∈ idList (totalObjs docs) := by
  intro r hr
  rw [mergedPageIds, mergeBase_closed docs hwf] at hr
  obtain ⟨dm, hdm, p, hp, hlk⟩ := collectPages_mem hr
  obtain ⟨d, m⟩ := dm
  obtain ⟨s, hs1, hs2, he⟩ := zip_mapsOf_mem hdm
  subst he
  obtain ⟨i, hi, hri⟩ := buildIdMap_val (idMapLookup_eq_some_mem hlk)
  subst hri
  exact mem_idList.mpr ⟨by omega, by simp at hi ⊢; omega, rfl⟩

theorem preParentTable_eq (docs : List Document) (hwf : WfDocs docs) :
    preParentTable docs
      = blocks docs 1 ++ [(mergedPagesId docs, .dictionary (mergedPagesDict docs))] := by
  have hb : (mergeBase docs).1 = blocks docs 1 := by rw [mergeBase_closed docs hwf]
  rw [preParentTable, hb]
  apply tableInsert_of_fresh
  rw [blocks_keys docs 1 hwf, mergedPagesId_eq]
  intro hmem
  obtain ⟨j, hj, hje⟩ := List.mem_map.mp hmem
  have := List.mem_range'_1.mp hj
  have h1 := congrArg Prod.fst hje
  simp at h1
  omega

theorem preParentTable_keys (docs : List Document) (hwf : WfDocs docs) :
    (preParentTable docs).map Prod.fst = idList (totalObjs docs + 1) := by
  rw [preParentTable_eq docs hwf, List.map_append, blocks_keys docs 1 hwf, mergedPagesId_eq]
  have h := idList_snoc (totalObjs docs)
  simpa [idList] using h

theorem mergeCore_objects_eq (docs : List Document) (hwf : WfDocs docs) :
    (mergeCore docs).objects
      = setParents (preParentTable docs) (mergedPageIds docs) (mergedPagesId docs)
          ++ [(mergedCatalogId docs, .dictionary (mergedCatalogDict docs))] := by
  rw [mergeCore]
  apply tableInsert_of_fresh
  rw [setParents_keys, preParentTable_keys docs hwf, mergedCatalogId_eq]
  intro h
  have := mem_idList.mp h
  simp at this

theorem mergeCore_keys (docs : List Document) (hwf : WfDocs docs) :
    (mergeCore docs).objects.map Prod.fst = idList (totalObjs docs + 2) := by
  rw [mergeCore_objects_eq docs hwf, List.map_append, setParents_keys,
    preParentTable_keys docs hwf, mergedCatalogId_eq]
  have h := idList_snoc (totalObjs docs + 1)
  simpa using h

theorem mergedPagesDict_eq (docs : List Document) :
    mergedPagesDict docs
      = .cons "Type" (.name "Pages")
          (.cons "Kids" (.array (refArray (mergedPageIds docs)))
            (.cons "Count" (.integer ((mergedPageIds docs).length : Int)) .nil)) := rfl

theorem mergedCatalogDict_eq (docs : List Document) :
    mergedCatalogDict docs
      = .cons "Type" (.name "Catalog")
          (.cons "Pages" (.reference (mergedPagesId docs)) .nil) := rfl

theorem countP_copyList (m : IDMap) (objs : List (ObjectId × Object)) (ty : String) :
    (copyList m objs).countP (fun p => hasTypeName ty p.2)
      = objs.countP (fun p => hasTypeName ty p.2) := by
  rw [copyList, List.countP_map]
  apply List.countP_congr
  intro p hp
  simp [Function.comp, hasTypeName_update]

theorem countP_blocks (docs : List Document) (n : Nat) (ty : String) :
    (blocks docs n).countP (fun p => hasTypeName ty p.2)
      = (docs.map (fun d => d.objects.countP (fun p => hasTypeName ty p.2))).sum := by
  induction docs generalizing n with
  | nil => simp [blocks]
  | cons d ds ih =>
      rw [blocks, List.countP_append, countP_copyList, ih, List.map_cons, List.sum_cons]

theorem countP_setParents (t : Table) (pids : List ObjectId) (par : ObjectId) (ty : String)
    (hnd : (t.map Prod.fst).Nodup) :
    (setParents t pids par).countP (fun p => hasTypeName ty p.2)
      = t.countP (fun p => hasTypeName ty p.2) := by
  rw [setParents_closed _ _ _ hnd, List.countP_map]
  apply List.countP_congr
  intro p hp
  by_cases h : p.1 ∈ pids <;> simp [Function.comp, h, hasTypeName_patchParent]

/-- C10: the merged document's version tag is always "1.5", regardless of
the input documents' version tags (the source constructs the output with
Document::with_version("1.5")). -/
theorem mergeCore_version (docs : List Document) : (mergeCore docs).version = "1.5" := rfl

/-- C8: merge_pdfs fails with the DirectoryNotFound message naming the
given path whenever the path is not a directory, and with the
NoCandidateFiles message whenever no entry has extension exactly "pdf";
in both cases it returns an error, so the merged document is never
constructed and nothing is saved. -/
theorem merge_pdfs_error_cases (dirPath : String) (entries : List FsEntry) :
    merge_pdfs dirPath false entries
        = .error ("Directory '" ++ dirPath ++ "' does not exist.") ∧
    (pdfCandidates entries = [] →
      merge_pdfs dirPath true entries = .error "No PDF files found in the directory.") := by
  constructor
  · rfl
  · intro h
    simp [merge_pdfs, h]

theorem merge_pdfs_error_cases_witness :
    merge_pdfs "/no/such/dir" false [entryOnePage]
        = .error "Directory '/no/such/dir' does not exist." ∧
    pdfCandidates [entryTxt] = [] ∧
    merge_pdfs "/tmp/scans" true [entryTxt]
        = .error "No PDF files found in the directory." :=
  ⟨(merge_pdfs_error_cases "/no/such/dir" [entryOnePage]).1, rfl,
   (merge_pdfs_error_cases "/tmp/scans" [entryTxt]).2 rfl⟩

/-- C5: the reference-rewrite transform behaves exactly as specified: a
Reference in the map is replaced by its image and one not in the map is
left unchanged (the transform never follows the reference into its
target); dictionary values are transformed with keys unchanged; array
elements are transformed pointwise; a stream's metadata values are
transformed while the raw payload is untouched; Null, Boolean, Integer,
Real, Byte-string and Name are returned unchanged. -/
theorem update_references_spec (m : IDMap) :
    (∀ i nid, idMapLookup m i = some nid →
        update_references m (.reference i) = .reference nid) ∧
    (∀ i, idMapLookup m i = none → update_references m (.reference i) = .reference i) ∧
    (∀ d, update_references m (.dictionary d) = .dictionary (updateDict m d) ∧
        (updateDict m d).keys = d.keys ∧
        (∀ k, dictGet (updateDict m d) k = (dictGet d k).map (update_references m))) ∧
    (∀ a, update_references m (.array a) = .array (updateList m a) ∧
        (updateList m a).toList = a.toList.map (update_references m)) ∧
    (∀ d c, update_references m (.stream d c) = .stream (updateDict m d) c) ∧
    update_references m .null = .null ∧
    (∀ b, update_references m (.boolean b) = .boolean b) ∧
    (∀ i, update_references m (.integer i) = .integer i) ∧
    (∀ r, update_references m (.real r) = .real r) ∧
    (∀ s, update_references m (.string s) = .string s) ∧
    (∀ n, update_references m (.name n) = .name n) := by
  refine ⟨?_, ?_, ?_, ?_, fun d c => rfl, rfl, fun b => rfl, fun i => rfl,
    fun r => rfl, fun s => rfl, fun n => rfl⟩
  · intro i nid h
    simp [update_references, h]
  · intro i h
    simp [update_references, h]
  · intro d
    exact ⟨rfl, updateDict_keys m d, fun k => dictGet_updateDict m d k⟩
  · intro a
    exact ⟨rfl, updateList_toList m a⟩

theorem update_references_spec_witness :
    idMapLookup [((1, 0), (5, 0))] (1, 0) = some (5, 0) ∧
    idMapLookup [((1, 0), (5, 0))] (2, 0) = none ∧
    update_references [((1, 0), (5, 0))] (.reference (1, 0)) = .reference (5, 0) ∧
    update_references [((1, 0), (5, 0))] (.reference (2, 0)) = .reference (2, 0) :=
  ⟨rfl, rfl,
   (update_references_spec [((1, 0), (5, 0))]).1 (1, 0) (5, 0) rfl,
   (update_references_spec [((1, 0), (5, 0))]).2.1 (2, 0) rfl⟩

/-- C6: within one merge the allocated ids are exactly (1,0), (2,0), ...
in order across the whole merged table: generation is always 0, numbering
starts at 1, increments by exactly one per allocation, continues across
source documents without reset, and never repeats, so the merged table's
keys are pairwise distinct. -/
theorem merge_allocator_ids (docs : List Document) (hwf : WfDocs docs) :
    (mergeCore docs).objects.map Prod.fst
        = (List.range' 1 (totalObjs docs + 2)).map (fun j => (j, 0)) ∧
    ((mergeCore docs).objects.map Prod.fst).Nodup := by
  refine ⟨mergeCore_keys docs hwf, ?_⟩
  rw [mergeCore_keys docs hwf]
  exact idList_nodup _

theorem merge_allocator_ids_witness :
    WfDocs [docOnePage, docNullOnly] ∧
    ((mergeCore [docOnePage, docNullOnly]).objects.map Prod.fst
        = (List.range' 1 (totalObjs [docOnePage, docNullOnly] + 2)).map (fun j => (j, 0)) ∧
     ((mergeCore [docOnePage, docNullOnly]).objects.map Prod.fst).Nodup) :=
  ⟨by decide, merge_allocator_ids [docOnePage, docNullOnly] (by decide)⟩

/-- C9, counterexample: for a one-object input document, the merge
allocates ids (1,0) for the copy, (2,0) for the Pages node and (3,0)
for the Catalog, yet sets the merged max-id counter to 4 — one more than
the Catalog's object number 3, which is the maximum number present in
the table.  This refutes the claim that the counter equals the last
allocated (Catalog) object number. -/
theorem merged_max_id_counterexample :
    (mergeCore [docNullOnly]).maxId = 4 ∧
    mergedCatalogId [docNullOnly] = (3, 0) ∧
    (∀ p ∈ (mergeCore [docNullOnly]).objects, p.1.1 ≤ 3) :=
  ⟨rfl, rfl, by decide⟩

/-- C9, amended: after a merge the merged document's max-id counter is
set to the final allocator value, which is one greater than the object
number of the last allocated ObjectId (the Catalog's), that number being
the maximum object number present in the merged table. -/
theorem merged_max_id (docs : List Document) (hwf : WfDocs docs) :
    (mergeCore docs).maxId = totalObjs docs + 3 ∧
    (mergeCore docs).maxId = (mergedCatalogId docs).1 + 1 ∧
    mergedCatalogId docs ∈ (mergeCore docs).objects.map Prod.fst ∧
    (∀ k ∈ (mergeCore docs).objects.map Prod.fst, k.1 ≤ (mergedCatalogId docs).1) := by
  have hmax : (mergeCore docs).maxId = totalObjs docs + 3 := by
    rw [show (mergeCore docs).maxId = (mergeBase docs).2.1 + 2 from rfl, mergeBase_counter]
  refine ⟨hmax, ?_, ?_, ?_⟩
  · rw [hmax, mergedCatalogId_eq]
  · rw [mergeCore_keys docs hwf, mergedCatalogId_eq]
    exact mem_idList.mpr ⟨by omega, by omega, rfl⟩
  · intro k hk
    rw [mergeCore_keys docs hwf] at hk
    rw [mergedCatalogId_eq]
    simpa using (mem_idList.mp hk).2.1

theorem merged_max_id_witness :
    WfDocs [docOnePage] ∧
    ((mergeCore [docOnePage]).maxId = totalObjs [docOnePage] + 3 ∧
     (mergeCore [docOnePage]).maxId = (mergedCatalogId [docOnePage]).1 + 1 ∧
     mergedCatalogId [docOnePage] ∈ (mergeCore [docOnePage]).objects.map Prod.fst ∧
     (∀ k ∈ (mergeCore [docOnePage]).objects.map Prod.fst,
        k.1 ≤ (mergedCatalogId [docOnePage]).1)) :=
  ⟨by decide, merged_max_id [docOnePage] (by decide)⟩

theorem preParentTable_keys_nodup (docs : List Document) (hwf : WfDocs docs) :
    ((preParentTable docs).map Prod.fst).Nodup := by
  rw [preParentTable_keys docs hwf]
  exact idList_nodup _

theorem mergedPagesId_not_page (docs : List Document) (hwf : WfDocs docs) :
    mergedPagesId docs ∉ mergedPageIds docs := by
  intro h
  have := mem_idList.mp (mergedPageIds_sub docs hwf _ h)
  rw [mergedPagesId_eq] at this
  simp at this

theorem pages_entry_mem_setParents (docs : List Document) (hwf : WfDocs docs) :
    (mergedPagesId docs, Object.dictionary (mergedPagesDict docs))
      ∈ setParents (preParentTable docs) (mergedPageIds docs) (mergedPagesId docs) := by
  rw [setParents_closed _ _ _ (preParentTable_keys_nodup docs hwf)]
  refine List.mem_map.mpr
    ⟨(mergedPagesId docs, Object.dictionary (mergedPagesDict docs)), ?_, ?_⟩
  · rw [preParentTable_eq docs hwf]
    exact List.mem_append_right _ (List.mem_singleton.mpr rfl)
  · simp [mergedPagesId_not_page docs hwf]

theorem pages_entry_mem (docs : List Document) (hwf : WfDocs docs) :
    (mergedPagesId docs, Object.dictionary (mergedPagesDict docs))
      ∈ (mergeCore docs).objects := by
  rw [mergeCore_objects_eq docs hwf]
  exact List.mem_append_left _ (pages_entry_mem_setParents docs hwf)

theorem catalog_entry_mem (docs : List Document) (hwf : WfDocs docs) :
    (mergedCatalogId docs, Object.dictionary (mergedCatalogDict docs))
      ∈ (mergeCore docs).objects := by
  rw [mergeCore_objects_eq docs hwf]
  exact List.mem_append_right _ (List.mem_singleton.mpr rfl)

theorem mergeCore_countP_type (docs : List Document) (hwf : WfDocs docs) (ty : String) :
    (mergeCore docs).objects.countP (fun p => hasTypeName ty p.2)
      = (docs.map (fun d => d.objects.countP (fun p => hasTypeName ty p.2))).sum
        + (if hasTypeName ty (.dictionary (mergedPagesDict docs)) then 1 else 0)
        + (if hasTypeName ty (.dictionary (mergedCatalogDict docs)) then 1 else 0) := by
  rw [mergeCore_objects_eq docs hwf, List.countP_append,
    countP_setParents _ _ _ _ (preParentTable_keys_nodup docs hwf),
    preParentTable_eq docs hwf, List.countP_append, countP_blocks]
  simp [List.countP_cons]

/-- C2, counterexample: merging a single document whose table contains a
Catalog dictionary (as every well-formed PDF does) leaves that copied
Catalog in the merged table next to the newly synthesized one, so the
merged table contains two Catalog objects, not exactly one. -/
theorem single_catalog_counterexample :
    (mergeCore [docCatalogOnly]).objects.countP
      (fun p => hasTypeName "Catalog" p.2) = 2 := by decide

/-- C2, amended: the merge synthesizes exactly one new Catalog and one
new top-level Pages node (so the merged table holds one plus the number
copied from the sources of each), and the merged trailer's Root entry
references the synthesized Catalog, which is present in the table. -/
theorem single_new_catalog (docs : List Document) (hwf : WfDocs docs) :
    (mergeCore docs).objects.countP (fun p => hasTypeName "Catalog" p.2)
        = 1 + (docs.map (fun d => d.objects.countP (fun p => hasTypeName "Catalog" p.2))).sum ∧
    (mergeCore docs).objects.countP (fun p => hasTypeName "Pages" p.2)
        = 1 + (docs.map (fun d => d.objects.countP (fun p => hasTypeName "Pages" p.2))).sum ∧
    dictGet (mergeCore docs).trailer "Root" = some (.reference (mergedCatalogId docs)) ∧
    (mergedCatalogId docs, Object.dictionary (mergedCatalogDict docs))
        ∈ (mergeCore docs).objects ∧
    hasTypeName "Catalog" (.dictionary (mergedCatalogDict docs)) = true ∧
    (mergedPagesId docs, Object.dictionary (mergedPagesDict docs))
        ∈ (mergeCore docs).objects ∧
    hasTypeName "Pages" (.dictionary (mergedPagesDict docs)) = true := by
  refine ⟨?_, ?_, rfl, catalog_entry_mem docs hwf, rfl, pages_entry_mem docs hwf, rfl⟩
  · rw [mergeCore_countP_type docs hwf]
    have h1 : hasTypeName "Catalog" (.dictionary (mergedPagesDict docs)) = false := rfl
    have h2 : hasTypeName "Catalog" (.dictionary (mergedCatalogDict docs)) = true := rfl
    rw [h1, h2]
    simp
    omega
  · rw [mergeCore_countP_type docs hwf]
    have h1 : hasTypeName "Pages" (.dictionary (mergedPagesDict docs)) = true := rfl
    have h2 : hasTypeName "Pages" (.dictionary (mergedCatalogDict docs)) = false := rfl
    rw [h1, h2]
    simp
    omega

theorem single_new_catalog_witness :
    WfDocs [docCatalogOnly] ∧
    ((mergeCore [docCatalogOnly]).objects.countP (fun p => hasTypeName "Catalog" p.2)
        = 1 + ([docCatalogOnly].map
            (fun d => d.objects.countP (fun p => hasTypeName "Catalog" p.2))).sum ∧
     (mergeCore [docCatalogOnly]).objects.countP (fun p => hasTypeName "Pages" p.2)
        = 1 + ([docCatalogOnly].map
            (fun d => d.objects.countP (fun p => hasTypeName "Pages" p.2))).sum ∧
     dictGet (mergeCore [docCatalogOnly]).trailer "Root"
        = some (.reference (mergedCatalogId [docCatalogOnly])) ∧
     (mergedCatalogId [docCatalogOnly], Object.dictionary (mergedCatalogDict [docCatalogOnly]))
        ∈ (mergeCore [docCatalogOnly]).objects ∧
     hasTypeName "Catalog" (.dictionary (mergedCatalogDict [docCatalogOnly])) = true ∧
     (mergedPagesId [docCatalogOnly], Object.dictionary (mergedPagesDict [docCatalogOnly]))
        ∈ (mergeCore [docCatalogOnly]).objects ∧
     hasTypeName "Pages" (.dictionary (mergedPagesDict [docCatalogOnly])) = true) :=
  ⟨by decide, single_new_catalog [docCatalogOnly] (by decide)⟩

theorem refArray_toList_length (l : List ObjectId) :
    (refArray l).toList.length = l.length := by
  induction l with
  | nil => rfl
  | cons i is ih => simp [refArray, ObjList.toList, ih]

theorem mapsOf_length (docs : List Document) (n : Nat) :
    (mapsOf docs n).length = docs.length := by
  induction docs generalizing n with
  | nil => rfl
  | cons d ds ih => simp [mapsOf, ih]

theorem mergedPageIds_length (docs : List Document) (hwf : WfDocs docs)
    (hpg : WfPages docs) : (mergedPageIds docs).length = totalPages docs := by
  rw [mergedPageIds, mergeBase_closed docs hwf]
  apply collectPages_length
  · rw [mapsOf_length]
  · intro dm hdm p hp
    obtain ⟨d, m⟩ := dm
    obtain ⟨s, _, _, he⟩ := zip_mapsOf_mem hdm
    subst he
    exact buildIdMap_lookup_isSome (hpg d (List.of_mem_zip hdm).1 p hp)

/-- C3: the merged page count equals the sum of the source page counts:
the synthesized Pages node carries a Kids array with exactly one
Reference per migrated page across all documents (in total, the sum of
the documents' page counts) and a Count integer equal to that array's
length; when the combined page count is zero the Kids array is empty and
Count is 0, with no error. -/
theorem merged_page_count (docs : List Document) (hwf : WfDocs docs) (hpg : WfPages docs) :
    (mergedPagesId docs, Object.dictionary (mergedPagesDict docs))
        ∈ (mergeCore docs).objects ∧
    dictGet (mergedPagesDict docs) "Kids"
        = some (.array (refArray (mergedPageIds docs))) ∧
    dictGet (mergedPagesDict docs) "Count"
        = some (.integer ((mergedPageIds docs).length : Int)) ∧
    (refArray (mergedPageIds docs)).toList.length = (mergedPageIds docs).length ∧
    (mergedPageIds docs).length = totalPages docs ∧
    (totalPages docs = 0 →
      refArray (mergedPageIds docs) = .nil ∧
      dictGet (mergedPagesDict docs) "Count" = some (.integer 0)) := by
  have hlen := mergedPageIds_length docs hwf hpg
  refine ⟨pages_entry_mem docs hwf, rfl, rfl, refArray_toList_length _, hlen, ?_⟩
  intro h0
  have hnil : mergedPageIds docs = [] := by
    rw [← List.length_eq_zero, hlen, h0]
  constructor
  · rw [hnil]
    rfl
  · rw [mergedPagesDict_eq, hnil]
    rfl

theorem merged_page_count_witness :
    WfDocs [docOnePage, docNullOnly] ∧ WfPages [docOnePage, docNullOnly] ∧
    ((mergedPagesId [docOnePage, docNullOnly],
        Object.dictionary (mergedPagesDict [docOnePage, docNullOnly]))
          ∈ (mergeCore [docOnePage, docNullOnly]).objects ∧
     dictGet (mergedPagesDict [docOnePage, docNullOnly]) "Kids"
        = some (.array (refArray (mergedPageIds [docOnePage, docNullOnly]))) ∧
     dictGet (mergedPagesDict [docOnePage, docNullOnly]) "Count"
        = some (.integer ((mergedPageIds [docOnePage, docNullOnly]).length : Int)) ∧
     (refArray (mergedPageIds [docOnePage, docNullOnly])).toList.length
        = (mergedPageIds [docOnePage, docNullOnly]).length ∧
     (mergedPageIds [docOnePage, docNullOnly]).length = totalPages [docOnePage, docNullOnly] ∧
     (totalPages [docOnePage, docNullOnly] = 0 →
       refArray (mergedPageIds [docOnePage, docNullOnly]) = .nil ∧
       dictGet (mergedPagesDict [docOnePage, docNullOnly]) "Count" = some (.integer 0))) :=
  ⟨by decide, by decide, merged_page_count [docOnePage, docNullOnly] (by decide) (by decide)⟩

/-- C7: for every migrated page id in the global page order whose entry
in the pre-fixup merged table is a dictionary, the page-tree
reconstruction step unconditionally overwrites that dictionary's
"Parent" entry with a Reference to the newly allocated merged Pages id
(superseding whatever the rewrite transform produced), and every entry
under a key other than "Parent" is unchanged by the overwrite. -/
theorem page_parent_overwrite (docs : List Document) (hwf : WfDocs docs)
    (pid : ObjectId) (hpid : pid ∈ mergedPageIds docs) (d : DictList)
    (hent : (pid, Object.dictionary d) ∈ preParentTable docs) :
    (pid, Object.dictionary (dictSet d "Parent" (.reference (mergedPagesId docs))))
        ∈ (mergeCore docs).objects ∧
    dictGet (dictSet d "Parent" (.reference (mergedPagesId docs))) "Parent"
        = some (.reference (mergedPagesId docs)) ∧
    (∀ k, k ≠ "Parent" →
      dictGet (dictSet d "Parent" (.reference (mergedPagesId docs))) k = dictGet d k) := by
  refine ⟨?_, dictGet_dictSet_self .., fun k hk => dictGet_dictSet_ne d "Parent" k _ hk⟩
  rw [mergeCore_objects_eq docs hwf]
  apply List.mem_append_left
  rw [setParents_closed _ _ _ (preParentTable_keys_nodup docs hwf)]
  refine List.mem_map.mpr ⟨(pid, .dictionary d), hent, ?_⟩
  simp [hpid, patchParent]

theorem page_parent_overwrite_witness :
    WfDocs [docOnePage] ∧
    (1, 0) ∈ mergedPageIds [docOnePage] ∧
    ((1, 0), Object.dictionary
        (.cons "Type" (.name "Page") (.cons "Contents" (.reference (2, 0)) .nil)))
      ∈ preParentTable [docOnePage] ∧
    (((1, 0), Object.dictionary
        (dictSet (.cons "Type" (.name "Page") (.cons "Contents" (.reference (2, 0)) .nil))
          "Parent" (.reference (mergedPagesId [docOnePage]))))
        ∈ (mergeCore [docOnePage]).objects ∧
     dictGet (dictSet (.cons "Type" (.name "Page") (.cons "Contents" (.reference (2, 0)) .nil))
          "Parent" (.reference (mergedPagesId [docOnePage]))) "Parent"
        = some (.reference (mergedPagesId [docOnePage])) ∧
     (∀ k, k ≠ "Parent" →
       dictGet (dictSet (.cons "Type" (.name "Page") (.cons "Contents" (.reference (2, 0)) .nil))
            "Parent" (.reference (mergedPagesId [docOnePage]))) k
          = dictGet (.cons "Type" (.name "Page") (.cons "Contents" (.reference (2, 0)) .nil)) k)) :=
  ⟨by decide, by decide, by decide,
   page_parent_overwrite [docOnePage] (by decide) (1, 0) (by decide) _ (by decide)⟩

/-- C4: the global page order of the merged document is the
concatenation, in ingestion order, of each source document's pages
sorted ascending by page-tree order key and translated through that
document's IDMap; ingestion order is the "pdf"-extension candidates
sorted ascending by modification time, stably (a permutation that is
sorted by mtime and preserves the directory-scan order within each
equal-mtime class), and the Kids array enumerates exactly that global
order. -/
theorem merged_page_order (dirPath : String) (entries : List FsEntry)
    (docs : List Document)
    (hne : pdfCandidates entries ≠ [])
    (hload : loadAll
        (stableSort (fun a b => decide (a.mtime ≤ b.mtime)) (pdfCandidates entries))
      = .ok docs) :
    merge_pdfs dirPath true entries = .ok (mergeCore docs) ∧
    mergedPageIds docs = specGlobalPageOrder docs (mergeBase docs).2.2 ∧
    dictGet (mergedPagesDict docs) "Kids"
        = some (.array (refArray (mergedPageIds docs))) ∧
    (stableSort (fun a b => decide (a.mtime ≤ b.mtime)) (pdfCandidates entries)).Pairwise
        (fun a b => a.mtime ≤ b.mtime) ∧
    (stableSort (fun a b => decide (a.mtime ≤ b.mtime)) (pdfCandidates entries)).Perm
        (pdfCandidates entries) ∧
    (∀ t, (stableSort (fun a b => decide (a.mtime ≤ b.mtime)) (pdfCandidates entries)).filter
          (fun e => decide (e.mtime = t))
        = (pdfCandidates entries).filter (fun e => decide (e.mtime = t))) ∧
    (∀ d ∈ docs, (sortPages d.pages).Pairwise (fun a b => a.1 ≤ b.1) ∧
        (sortPages d.pages).Perm d.pages ∧
        (∀ t, (sortPages d.pages).filter (fun p => decide (p.1 = t))
            = d.pages.filter (fun p => decide (p.1 = t)))) := by
  refine ⟨?_, collectPages_eq_spec docs (mergeBase docs).2.2, rfl,
    stableSort_sorted (fun e : FsEntry => e.mtime) _, stableSort_perm _ _,
    fun t => stableSort_filter_key (fun e : FsEntry => e.mtime) _ t,
    fun d _ => ⟨stableSort_sorted (fun p : Nat × ObjectId => p.1) _, stableSort_perm _ _,
      fun t => stableSort_filter_key (fun p : Nat × ObjectId => p.1) _ t⟩⟩
  have hneb : (pdfCandidates entries).isEmpty = false := by
    rw [List.isEmpty_eq_false]
    exact hne
  simp [merge_pdfs, hneb, hload]

theorem merged_page_order_witness :
    pdfCandidates [entryOnePage] ≠ [] ∧
    loadAll (stableSort (fun a b => decide (a.mtime ≤ b.mtime))
        (pdfCandidates [entryOnePage])) = .ok [docOnePage] ∧
    (merge_pdfs "/tmp/scans" true [entryOnePage] = .ok (mergeCore [docOnePage]) ∧
     mergedPageIds [docOnePage]
        = specGlobalPageOrder [docOnePage] (mergeBase [docOnePage]).2.2 ∧
     dictGet (mergedPagesDict [docOnePage]) "Kids"
        = some (.array (refArray (mergedPageIds [docOnePage]))) ∧
     (stableSort (fun a b => decide (a.mtime ≤ b.mtime))
        (pdfCandidates [entryOnePage])).Pairwise (fun a b => a.mtime ≤ b.mtime) ∧
     (stableSort (fun a b => decide (a.mtime ≤ b.mtime))
        (pdfCandidates [entryOnePage])).Perm (pdfCandidates [entryOnePage]) ∧
     (∀ t, (stableSort (fun a b => decide (a.mtime ≤ b.mtime))
            (pdfCandidates [entryOnePage])).filter (fun e => decide (e.mtime = t))
         = (pdfCandidates [entryOnePage]).filter (fun e => decide (e.mtime = t))) ∧
     (∀ d ∈ [docOnePage], (sortPages d.pages).Pairwise (fun a b => a.1 ≤ b.1) ∧
        (sortPages d.pages).Perm d.pages ∧
        (∀ t, (sortPages d.pages).filter (fun p => decide (p.1 = t))
            = d.pages.filter (fun p => decide (p.1 = t))))) :=
  ⟨List.cons_ne_nil entryOnePage [], rfl,
   merged_page_order "/tmp/scans" [entryOnePage] [docOnePage]
     (List.cons_ne_nil entryOnePage []) rfl⟩

/-- C1: after a merge, every Reference held by any object of the merged
table either resolves to a key present in the merged table or is the
unchanged copy of a reference that was already dangling in its source
document (its target id occurs in a source object of some input document
but is not a key of that document's table); furthermore the trailer's
synthesized Root reference targets the Catalog entry present in the
merged table.  The synthesized Kids, Parent and Pages references are
covered by the table-wide property, since the Pages and Catalog
dictionaries are themselves entries of the merged table. -/
theorem merge_no_dangling (docs : List Document) (hwf : WfDocs docs) :
    (∀ p ∈ (mergeCore docs).objects, ∀ r ∈ refsOf p.2,
        r ∈ (mergeCore docs).objects.map Prod.fst ∨
        (∃ d ∈ docs, (∃ q ∈ d.objects, r ∈ refsOf q.2) ∧ r ∉ d.objects.map Prod.fst)) ∧
    dictGet (mergeCore docs).trailer "Root" = some (.reference (mergedCatalogId docs)) ∧
    mergedCatalogId docs ∈ (mergeCore docs).objects.map Prod.fst := by
  have hkeys := mergeCore_keys docs hwf
  have hsub : ∀ r, r ∈ idList (totalObjs docs) →
      r ∈ (mergeCore docs).objects.map Prod.fst := by
    intro r hr
    rw [hkeys]
    have h := mem_idList.mp hr
    exact mem_idList.mpr ⟨h.1, by omega, h.2.2⟩
  refine ⟨?_, rfl, ?_⟩
  · intro p hp r hr
    rw [mergeCore_objects_eq docs hwf, List.mem_append] at hp
    rcases hp with hp | hp
    · rw [setParents_closed _ _ _ (preParentTable_keys_nodup docs hwf)] at hp
      obtain ⟨p0, hp0, hpe⟩ := List.mem_map.mp hp
      have hrefs : r ∈ refsOf p0.2 ∨ r = mergedPagesId docs := by
        by_cases hc : p0.1 ∈ mergedPageIds docs
        · rw [if_pos hc] at hpe
          rw [← hpe] at hr
          exact refsOf_patchParent _ _ r hr
        · rw [if_neg hc] at hpe
          rw [← hpe] at hr
          exact Or.inl hr
      rcases hrefs with hrefs | rfl
      · rw [preParentTable_eq docs hwf, List.mem_append] at hp0
        rcases hp0 with hp0 | hp0
        · obtain ⟨d, hd, s, hs1, hs2, q, hq, he⟩ := blocks_mem hp0
          rw [he] at hrefs
          rcases refsOf_update _ _ r hrefs with hcase | hcase
          · obtain ⟨s', hs'⟩ := hcase
            obtain ⟨i, hi, hri⟩ := buildIdMap_val (idMapLookup_eq_some_mem hs')
            subst hri
            left
            apply hsub
            exact mem_idList.mpr ⟨by omega, by simp at hi ⊢; omega, rfl⟩
          · right
            exact ⟨d, hd, ⟨q, hq, hcase.1⟩, buildIdMap_lookup_none hcase.2⟩
        · rw [List.mem_singleton] at hp0
          subst hp0
          have hpd : refsOf (Object.dictionary (mergedPagesDict docs))
              = mergedPageIds docs := by
            rw [mergedPagesDict_eq]
            simp [refsOf, refsOfDict, refsOfList_refArray]
          left
          apply hsub
          apply mergedPageIds_sub docs hwf
          rw [← hpd]
          exact hrefs
      · left
        rw [hkeys, mergedPagesId_eq]
        exact mem_idList.mpr ⟨by omega, by omega, rfl⟩
    · rw [List.mem_singleton] at hp
      subst hp
      have hcd : refsOf (Object.dictionary (mergedCatalogDict docs))
          = [mergedPagesId docs] := by
        rw [mergedCatalogDict_eq]
        simp [refsOf, refsOfDict]
      rw [show ((mergedCatalogId docs, Object.dictionary (mergedCatalogDict docs)) :
          ObjectId × Object).2 = Object.dictionary (mergedCatalogDict docs) from rfl, hcd,
        List.mem_singleton] at hr
      subst hr
      left
      rw [hkeys, mergedPagesId_eq]
      exact mem_idList.mpr ⟨by omega, by omega, rfl⟩
  · rw [hkeys, mergedCatalogId_eq]
    exact mem_idList.mpr ⟨by omega, by omega, rfl⟩

theorem merge_no_dangling_witness :
    WfDocs [docOnePage, docCatalogOnly] ∧
    ((∀ p ∈ (mergeCore [docOnePage, docCatalogOnly]).objects, ∀ r ∈ refsOf p.2,
        r ∈ (mergeCore [docOnePage, docCatalogOnly]).objects.map Prod.fst ∨
        (∃ d ∈ [docOnePage, docCatalogOnly],
          (∃ q ∈ d.objects, r ∈ refsOf q.2) ∧ r ∉ d.objects.map Prod.fst)) ∧
     dictGet (mergeCore [docOnePage, docCatalogOnly]).trailer "Root"
        = some (.reference (mergedCatalogId [docOnePage, docCatalogOnly])) ∧
     mergedCatalogId [docOnePage, docCatalogOnly]
        ∈ (mergeCore [docOnePage, docCatalogOnly]).objects.map Prod.fst) :=
  ⟨by decide, merge_no_dangling [docOnePage, docCatalogOnly] (by decide)⟩
